import Mathlib

/-!
Verification of the microphone-evaluation pipeline (evaluate.py).

The Python source is shallowly embedded: floats become rationals, Python
ints become integers, `Optional[x]` becomes `Option`, Python truthiness
tests (`if x:`) are translated as the explicit test against `None`/`0`,
and exceptions become `Except`.  Names follow the source where the
development allows it.
-/

open List

/-- Audio quality metrics for a sample (dataclass AudioMetrics).
The two fields named silence_ratio and clipping_ratio in the source are
called silence_frac and clipping_frac here. -/
structure AudioMetrics where
  duration_seconds : ℚ
  sample_rate : Int
  channels : Int
  bit_depth : Option Int
  codec : String
  bitrate_kbps : Option ℚ
  peak_amplitude_db : ℚ
  rms_level_db : ℚ
  estimated_snr_db : Option ℚ
  dynamic_range_db : ℚ
  silence_frac : ℚ
  clipping_frac : ℚ
deriving DecidableEq

/-- Result from a transcription service (dataclass TranscriptionResult). -/
structure TranscriptionResult where
  service : String
  text : String
  wer : ℚ
  cer : ℚ
  processing_time_seconds : Option ℚ
  run_date : Option String
deriving DecidableEq

/-- Microphone descriptor: the fields of the metadata dict that
evaluate.py reads (manufacturer, model, and the optional category key). -/
structure Microphone where
  manufacturer : String
  model : String
  category : Option String
deriving DecidableEq

/-- Complete evaluation for a single sample (dataclass SampleEvaluation). -/
structure SampleEvaluation where
  sample_id : Int
  filename : String
  microphone : Microphone
  audio_metrics : AudioMetrics
  transcriptions : List TranscriptionResult
  audio_quality_score : ℚ
deriving DecidableEq

/-- Sample-rate summand of calculate_audio_quality_score (max 15 points). -/
def sampleRateScore (sr : Int) : ℚ :=
  if sr ≥ 48000 then 15
  else if sr ≥ 44100 then 12
  else if sr ≥ 22050 then 8
  else 5

/-- Bit-depth summand (max 10 points).  The source guards with
`if metrics.bit_depth:`, whose Python truthiness sends both `None` and a
bit depth of `0` to the unknown branch worth 6 points. -/
def bitDepthScore (bd : Option Int) : ℚ :=
  match bd with
  | none => 6
  | some b =>
    if b = 0 then 6
    else if b ≥ 24 then 10
    else if b ≥ 16 then 8
    else 5

/-- SNR summand (max 25 points).  The source guards with
`if metrics.estimated_snr_db:`, whose Python truthiness sends both `None`
and an SNR of exactly `0.0` to the unknown branch worth 12 points. -/
def snrScore (snr : Option ℚ) : ℚ :=
  match snr with
  | none => 12
  | some x =>
    if x = 0 then 12
    else if x ≥ 40 then 25
    else if x ≥ 30 then 20
    else if x ≥ 20 then 15
    else if x ≥ 10 then 10
    else 5

/-- RMS-level summand (max 20 points). -/
def rmsScore (rms : ℚ) : ℚ :=
  if -20 ≤ rms ∧ rms ≤ -10 then 20
  else if -25 ≤ rms ∧ rms ≤ -8 then 15
  else if -30 ≤ rms ∧ rms ≤ -6 then 10
  else 5

/-- Clipping summand: `15 * (1 - clipping_ratio)`, continuous. -/
def clippingScore (c : ℚ) : ℚ := 15 * (1 - c)

/-- Dynamic-range summand (max 15 points). -/
def dynamicRangeScore (dr : ℚ) : ℚ :=
  if 30 ≤ dr ∧ dr ≤ 60 then 15
  else if 20 ≤ dr ∧ dr ≤ 70 then 12
  else if 15 ≤ dr ∧ dr ≤ 80 then 8
  else 5

/-- calculate_audio_quality_score: composite score, the sum of the six
summands accumulated by the source, clamped by `min(100, max(0, score))`. -/
def calculate_audio_quality_score (m : AudioMetrics) : ℚ :=
  min 100 (max 0
    (sampleRateScore m.sample_rate + bitDepthScore m.bit_depth +
      snrScore m.estimated_snr_db + rmsScore m.rms_level_db +
      clippingScore m.clipping_frac + dynamicRangeScore m.dynamic_range_db))

/-- estimate_noise_floor, applied to the per-window RMS values parsed from
the statistics collaborator output.  The source keeps a value only when
`val > -100` (filtering the -inf sentinel), sorts ascending, and returns
the entry at index `max(0, int(len * 0.1))`; with no valid values it
returns -60.0.  Python list.sort is stable; `insertionSort (· ≤ ·)` is the
same stable ascending sort. -/
def estimate_noise_floor (rms_values : List ℚ) : ℚ :=
  let valid := rms_values.filter (fun v => v > -100)
  if valid.isEmpty then -60
  else
    let sorted := insertionSort (· ≤ ·) valid
    sorted.getD (max 0 (valid.length / 10)) 0

/-- The whitespace characters of Python's `\s` / `str.split`, at the ASCII
level of this embedding. -/
def isPySpace (c : Char) : Bool :=
  c == ' ' || c == '\t' || c == '\n' || c == '\r' || c == '\x0b' || c == '\x0c'

/-- A character kept by the regex `[^\w\s]` deletion: a word character,
i.e. alphanumeric or underscore (`\w`). -/
def isWordChar (c : Char) : Bool := c.isAlphanum || c == '_'

/-- Helper for Python's `str.split()`: accumulates the current word
(in reverse) while scanning; whitespace runs separate words, empty words
are never produced. -/
def splitWsAux (cur : List Char) : List Char → List (List Char)
  | [] => if cur.isEmpty then [] else [cur.reverse]
  | c :: rest =>
    if isPySpace c then
      if cur.isEmpty then splitWsAux [] rest
      else cur.reverse :: splitWsAux [] rest
    else splitWsAux (c :: cur) rest

/-- Python `text.split()`: split on whitespace runs, discarding empties. -/
def splitWs (l : List Char) : List (List Char) := splitWsAux [] l

/-- Python `" ".join(words)`. -/
def joinSpace : List (List Char) → List Char
  | [] => []
  | [w] => w
  | w :: x :: ws => w ++ ' ' :: joinSpace (x :: ws)

/-- normalize_text: lowercase, delete every character matching `[^\w\s]`,
then `" ".join(text.split())`.  Strings are embedded as character lists;
`Char.toLower` is the ASCII lowering Python performs on ASCII text. -/
def normalize_text (s : List Char) : List Char :=
  joinSpace (splitWs ((s.map Char.toLower).filter
    (fun c => isWordChar c || isPySpace c)))

/-- Service tag of the local Whisper backend. -/
def localService : String := "local_whisper_large_v3_turbo"

/-- Service tag of the OpenAI Whisper backend. -/
def openaiService : String := "openai_whisper_1"

/-- `any(t.service == srv for t in e.transcriptions)`. -/
def hasService (srv : String) (e : SampleEvaluation) : Bool :=
  e.transcriptions.any (fun t => t.service == srv)

/-- `next(t.wer for t in e.transcriptions if t.service == srv)`: the WER of
the first transcription for the given backend.  The default 0 is only
reachable where the source would raise StopIteration; every use below is
guarded by a `hasService` filter, as in the source. -/
def serviceWer (srv : String) (e : SampleEvaluation) : ℚ :=
  ((e.transcriptions.find? (fun t => t.service == srv)).map (fun t => t.wer)).getD 0

/-- The insertion relation of `sorted(evaluations, key=score, reverse=True)`:
a stable descending sort keeps `a` before `b` exactly when
`key b <= key a`. -/
def qualityGE (a b : SampleEvaluation) : Prop :=
  b.audio_quality_score ≤ a.audio_quality_score

instance : DecidableRel qualityGE :=
  fun a b => inferInstanceAs (Decidable (b.audio_quality_score ≤ a.audio_quality_score))

instance : IsTotal SampleEvaluation qualityGE :=
  ⟨fun a b => le_total b.audio_quality_score a.audio_quality_score⟩

instance : IsTrans SampleEvaluation qualityGE :=
  ⟨fun _ _ _ h1 h2 => le_trans h2 h1⟩

/-- The insertion relation of the stable ascending sorts
`sorted(..., key=wer)` for a backend. -/
def werLE (srv : String) (a b : SampleEvaluation) : Prop :=
  serviceWer srv a ≤ serviceWer srv b

instance (srv : String) : DecidableRel (werLE srv) :=
  fun a b => inferInstanceAs (Decidable (serviceWer srv a ≤ serviceWer srv b))

instance (srv : String) : IsTotal SampleEvaluation (werLE srv) :=
  ⟨fun a b => le_total (serviceWer srv a) (serviceWer srv b)⟩

instance (srv : String) : IsTrans SampleEvaluation (werLE srv) :=
  ⟨fun _ _ _ h1 h2 => le_trans h1 h2⟩

/-- The insertion relation of `evaluations.sort(key=lambda e: e.sample_id)`. -/
def idLE (a b : SampleEvaluation) : Prop := a.sample_id ≤ b.sample_id

instance : DecidableRel idLE :=
  fun a b => inferInstanceAs (Decidable (a.sample_id ≤ b.sample_id))

instance : IsTotal SampleEvaluation idLE := ⟨fun a b => le_total a.sample_id b.sample_id⟩

instance : IsTrans SampleEvaluation idLE := ⟨fun _ _ _ h1 h2 => le_trans h1 h2⟩

/-- `by_quality = sorted(evaluations, key=score, reverse=True)` from
generate_report.  Python sorted is stable; `insertionSort qualityGE` is
the same stable descending sort. -/
def by_quality (evals : List SampleEvaluation) : List SampleEvaluation :=
  insertionSort qualityGE evals

/-- The per-backend WER ordering of generate_report: filter to the samples
that have a result for the backend, then stable-sort ascending by that
backend WER. -/
def by_backend_wer (srv : String) (evals : List SampleEvaluation) : List SampleEvaluation :=
  insertionSort (werLE srv) (evals.filter (hasService srv))

/-- `evaluations.sort(key=lambda e: e.sample_id)`, stable ascending. -/
def sortById (l : List SampleEvaluation) : List SampleEvaluation :=
  insertionSort idLE l

/-- Round half to even on rationals, the rounding of Python round(). -/
def roundHalfEven (q : ℚ) : Int :=
  if q - ⌊q⌋ < 1/2 then ⌊q⌋
  else if q - ⌊q⌋ > 1/2 then ⌊q⌋ + 1
  else if ⌊q⌋ % 2 = 0 then ⌊q⌋ else ⌊q⌋ + 1

/-- Python `round(q, nd)` on the rational embedding of floats. -/
def pyRound (q : ℚ) (nd : Nat) : ℚ :=
  (roundHalfEven (q * (10 ^ nd)) : ℚ) / (10 ^ nd)

/-- One entry of the by_audio_quality ranking. -/
structure QualityEntry where
  rank : Nat
  sample_id : Int
  microphone : String
  category : Option String
  score : ℚ
deriving DecidableEq

/-- One entry of a per-backend WER ranking. -/
structure WerEntry where
  rank : Nat
  sample_id : Int
  microphone : String
  wer_percent : ℚ
deriving DecidableEq

/-- The per-category aggregate record of category_analysis. -/
structure CategoryData where
  samples : List Int
  avg_quality : ℚ
  avg_wer : Option ℚ
deriving DecidableEq

/-- The summary block of the report. -/
structure Summary where
  total_samples : Nat
  reference_text_words : Nat
  openai_api_available : Bool
deriving DecidableEq

/-- The report document.  `by_openai_whisper_wer` is an `Option` because
the source inserts that rankings key only when the OpenAI list is
nonempty; the two unconditional rankings keys are plain fields. -/
structure Report where
  summary : Summary
  by_audio_quality : List QualityEntry
  by_local_whisper_wer : List WerEntry
  by_openai_whisper_wer : Option (List WerEntry)
  category_analysis : List (String × CategoryData)
  detailed_results : List SampleEvaluation
deriving DecidableEq

/-- The by_audio_quality ranking entries: enumerate the descending-quality
order, rank = 1-based position. -/
def quality_entries (evals : List SampleEvaluation) : List QualityEntry :=
  (by_quality evals).enum.map (fun p =>
    { rank := p.1 + 1
      sample_id := p.2.sample_id
      microphone := p.2.microphone.manufacturer ++ " " ++ p.2.microphone.model
      category := p.2.microphone.category
      score := pyRound p.2.audio_quality_score 1 })

/-- The entries of a per-backend WER ranking over an already-sorted list. -/
def wer_entries (srv : String) (l : List SampleEvaluation) : List WerEntry :=
  l.enum.map (fun p =>
    { rank := p.1 + 1
      sample_id := p.2.sample_id
      microphone := p.2.microphone.manufacturer ++ " " ++ p.2.microphone.model
      wer_percent := pyRound (serviceWer srv p.2 * 100) 2 })

/-- The category keys in first-occurrence order, keyed by
`e.microphone.get("category", "unknown")` (Python dicts preserve
insertion order). -/
def category_keys (evals : List SampleEvaluation) : List String :=
  evals.foldl (fun acc e =>
    let c := e.microphone.category.getD "unknown"
    if c ∈ acc then acc else acc ++ [c]) []

/-- The per-category samples list accumulated in the first loop of the
category analysis, keyed with the "unknown" default. -/
def category_samples (evals : List SampleEvaluation) (cat : String) : List Int :=
  (evals.filter (fun e => e.microphone.category.getD "unknown" == cat)).map
    (fun e => e.sample_id)

/-- The aggregate pass of the category analysis.  Note the source filter
`e.microphone.get("category") == cat` has no "unknown" default, unlike the
grouping key; when it matches nothing, `sum(...) / len(cat_evals)` is a
ZeroDivisionError, embedded as the error case. -/
def category_stat (evals : List SampleEvaluation) (cat : String) :
    Except String CategoryData :=
  let cat_evals := evals.filter (fun e => e.microphone.category == some cat)
  if cat_evals.isEmpty then .error "ZeroDivisionError: division by zero"
  else
    let wers := cat_evals.filterMap (fun e =>
      (e.transcriptions.find? (fun t => t.service == localService)).map (fun t => t.wer))
    .ok { samples := category_samples evals cat
          avg_quality := (cat_evals.map (fun e => e.audio_quality_score)).sum /
            (cat_evals.length : ℚ)
          avg_wer := if wers.isEmpty then none
            else some (wers.sum / (wers.length : ℚ)) }

/-- category_analysis of generate_report: aggregates per key, in key
order; a ZeroDivisionError in any group aborts report generation. -/
def category_analysis (evals : List SampleEvaluation) :
    Except String (List (String × CategoryData)) :=
  (category_keys evals).mapM (fun cat =>
    (category_stat evals cat).map (fun d => (cat, d)))

/-- generate_report.  Besides the evaluation list it reads the reference
text (for the summary word count) and the module global OPENAI_API_KEY
loaded from the process environment (for summary.openai_api_available),
embedded as the explicit argument api_key_present. -/
def generate_report (evals : List SampleEvaluation) (reference_text : List Char)
    (api_key_present : Bool) : Except String Report :=
  (category_analysis evals).map (fun cats =>
    { summary :=
        { total_samples := evals.length
          reference_text_words := (splitWs reference_text).length
          openai_api_available := api_key_present }
      by_audio_quality := quality_entries evals
      by_local_whisper_wer := wer_entries localService (by_backend_wer localService evals)
      by_openai_whisper_wer :=
        if (by_backend_wer openaiService evals).isEmpty then none
        else some (wer_entries openaiService (by_backend_wer openaiService evals))
      category_analysis := cats
      detailed_results := evals.map (fun e =>
        { e with audio_quality_score := pyRound e.audio_quality_score 1 }) })

/-- The keys of the report rankings dict: the quality and local-WER keys
are always inserted; the OpenAI key only when its list is nonempty. -/
def ranking_keys (evals : List SampleEvaluation) : List String :=
  ["by_audio_quality", "by_local_whisper_wer"] ++
    (if (by_backend_wer openaiService evals).isEmpty then []
     else ["by_openai_whisper_wer"])

/-- What the main loop finds for one metadata sample: the file is missing,
or probing it yields unparseable output (json.loads raises), or evaluation
succeeds with some SampleEvaluation payload. -/
inductive FileStatus where
  | missing
  | probeFail (msg : String)
  | ok (payload : SampleEvaluation)
deriving DecidableEq

/-- One entry of the metadata sample list together with the outcome its
file would produce. -/
structure MetaSample where
  id : Int
  status : FileStatus
deriving DecidableEq

/-- The per-sample loop of main: a missing file prints a skip notice and
continues; a probe failure propagates as an uncaught exception, aborting
the batch; success appends `evaluate_sample`, whose sample_id is the
metadata id. -/
def evaluate_batch : List MetaSample → Except String (List SampleEvaluation)
  | [] => .ok []
  | s :: rest =>
    match s.status with
    | .missing => evaluate_batch rest
    | .probeFail msg => .error msg
    | .ok p => (evaluate_batch rest).map (fun l => { p with sample_id := s.id } :: l)

/-- The `--samples` filter of main: with targets, keep the metadata
samples whose id is listed. -/
def select_samples (metadata : List MetaSample) (targets : Option (List Int)) :
    List MetaSample :=
  match targets with
  | none => metadata
  | some ids => metadata.filter (fun s => s.id ∈ ids)

/-- The prior-results loading of main: only in merge mode, only when the
results file exists, and with the target samples filtered out when
`--samples` was given. -/
def filter_existing (prior : Option (List SampleEvaluation))
    (targets : Option (List Int)) (do_merge : Bool) : List SampleEvaluation :=
  if do_merge then
    match prior with
    | none => []
    | some es =>
      match targets with
      | none => es
      | some ids => es.filter (fun e => e.sample_id ∉ ids)
  else []

/-- The evaluation list main hands to generate_report: fresh evaluations
of the selected samples, then — only when merging and the filtered prior
list is nonempty — the reconstructed prior evaluations appended and the
whole list sorted by sample_id. -/
def main_evaluations (metadata : List MetaSample) (targets : Option (List Int))
    (do_merge : Bool) (prior : Option (List SampleEvaluation)) :
    Except String (List SampleEvaluation) :=
  let existing := filter_existing prior targets do_merge
  (evaluate_batch (select_samples metadata targets)).map (fun fresh =>
    if do_merge && !existing.isEmpty then sortById (fresh ++ existing) else fresh)

/-- Fixed metrics used by the concrete instances below. -/
def sampleMetrics : AudioMetrics :=
  { duration_seconds := 30
    sample_rate := 48000
    channels := 1
    bit_depth := some 16
    codec := "pcm_s16le"
    bitrate_kbps := none
    peak_amplitude_db := -1
    rms_level_db := -15
    estimated_snr_db := some 35
    dynamic_range_db := 50
    silence_frac := 0
    clipping_frac := 0 }

/-- A concrete evaluation with the given sample id, no transcriptions,
category "dynamic", quality score 80. -/
def mkEval (i : Int) : SampleEvaluation :=
  { sample_id := i
    filename := "sample.wav"
    microphone := { manufacturer := "Acme", model := "M1", category := some "dynamic" }
    audio_metrics := sampleMetrics
    transcriptions := []
    audio_quality_score := 80 }

/-- A concrete evaluation whose microphone dict has no category key. -/
def noCategoryEval : SampleEvaluation :=
  { mkEval 7 with
    microphone := { manufacturer := "Acme", model := "M2", category := none } }

/-- Whether a file status is the probe-failure outcome. -/
def FileStatus.isProbeFail : FileStatus → Bool
  | .probeFail _ => true
  | _ => false

/-- The order the spec claims for the by_audio_quality ranking:
strictly higher score first, ties by ascending sample_id. -/
def qualityIdOrder (a b : SampleEvaluation) : Prop :=
  b.audio_quality_score < a.audio_quality_score ∨
    (a.audio_quality_score = b.audio_quality_score ∧ a.sample_id < b.sample_id)

instance : DecidableRel qualityIdOrder :=
  fun _ _ => inferInstanceAs (Decidable (_ ∨ _))

/-- A concrete metadata list whose order is not ascending in sample id. -/
def c3meta : List MetaSample := [⟨2, .ok (mkEval 2)⟩, ⟨1, .ok (mkEval 1)⟩]

/-- Equality of embedded run results is decidable. -/
instance {ε α : Type} [DecidableEq ε] [DecidableEq α] : DecidableEq (Except ε α) :=
  fun a b =>
    match a, b with
    | .ok x, .ok y =>
      decidable_of_iff (x = y) ⟨fun h => h ▸ rfl, fun h => Except.ok.inj h⟩
    | .error x, .error y =>
      decidable_of_iff (x = y) ⟨fun h => h ▸ rfl, fun h => Except.error.inj h⟩
    | .ok _, .error _ => isFalse (fun h => Except.noConfusion h)
    | .error _, .ok _ => isFalse (fun h => Except.noConfusion h)

/-- C1: for every AudioMetrics value the composite score lies in [0,100];
the function is total by construction. -/
theorem calculate_audio_quality_score_bounds (m : AudioMetrics) :
    0 ≤ calculate_audio_quality_score m ∧ calculate_audio_quality_score m ≤ 100 := by
  unfold calculate_audio_quality_score
  constructor
  · exact le_min (by norm_num) (le_max_left 0 _)
  · exact min_le_left _ _

/-- C2 counterexample: an estimated SNR of exactly 0 dB takes the unknown
branch and contributes 12 points, not the claimed 5. -/
theorem snrScore_zero_counterexample :
    snrScore (some 0) = 12 ∧ decide (snrScore (some 0) = 5) = false := by
  constructor
  · rfl
  · decide

/-- C2 amended: the SNR summand of calculate_audio_quality_score is 25 for
SNR ≥ 40, 20 on [30,40), 15 on [20,30), 10 on [10,20), 5 for a present
nonzero SNR below 10, and 12 when the SNR is absent or exactly 0 dB. -/
theorem snrScore_cases (x : ℚ) :
    snrScore none = 12 ∧
    snrScore (some 0) = 12 ∧
    (x ≥ 40 → snrScore (some x) = 25) ∧
    (30 ≤ x ∧ x < 40 → snrScore (some x) = 20) ∧
    (20 ≤ x ∧ x < 30 → snrScore (some x) = 15) ∧
    (10 ≤ x ∧ x < 20 → snrScore (some x) = 10) ∧
    (x ≠ 0 ∧ x < 10 → snrScore (some x) = 5) := by
  refine ⟨rfl, rfl, ?_, ?_, ?_, ?_, ?_⟩
  · intro h
    have hx : x ≠ 0 := by intro h0; rw [h0] at h; norm_num at h
    simp [snrScore, hx, h]
  · rintro ⟨h1, h2⟩
    have hx : x ≠ 0 := by intro h0; rw [h0] at h1; norm_num at h1
    simp [snrScore, hx, h1, not_le.mpr h2]
  · rintro ⟨h1, h2⟩
    have hx : x ≠ 0 := by intro h0; rw [h0] at h1; norm_num at h1
    have h3 : ¬ x ≥ 40 := by intro h; linarith
    have h4 : ¬ x ≥ 30 := by intro h; linarith
    simp [snrScore, hx, h3, h4, h1]
  · rintro ⟨h1, h2⟩
    have hx : x ≠ 0 := by intro h0; rw [h0] at h1; norm_num at h1
    have h3 : ¬ x ≥ 40 := by intro h; linarith
    have h4 : ¬ x ≥ 30 := by intro h; linarith
    have h5 : ¬ x ≥ 20 := by intro h; linarith
    simp [snrScore, hx, h3, h4, h5, h1]
  · rintro ⟨hx, h2⟩
    have h3 : ¬ x ≥ 40 := by intro h; linarith
    have h4 : ¬ x ≥ 30 := by intro h; linarith
    have h5 : ¬ x ≥ 20 := by intro h; linarith
    have h6 : ¬ x ≥ 10 := by intro h; linarith
    simp [snrScore, hx, h3, h4, h5, h6]

/-- C2 witness: the amended SNR case analysis evaluated at SNR = 35 dB. -/
theorem snrScore_cases_witness :
    (30 ≤ (35 : ℚ) ∧ (35 : ℚ) < 40) ∧ snrScore (some 35) = 20 :=
  ⟨by norm_num, (snrScore_cases 35).2.2.2.1 (by norm_num)⟩

theorem splitWsAux_words (l : List Char) : ∀ (cur : List Char),
    (∀ c ∈ cur, isPySpace c = false) →
    ∀ w ∈ splitWsAux cur l, w ≠ [] ∧ ∀ c ∈ w, isPySpace c = false ∧ (c ∈ cur ∨ c ∈ l) := by
  induction l with
  | nil =>
    intro cur hcur w hw
    by_cases hc : cur.isEmpty
    · simp [splitWsAux, hc] at hw
    · simp [splitWsAux, hc] at hw
      subst hw
      refine ⟨by simpa using (by simpa [List.isEmpty_iff] using hc), ?_⟩
      intro c hcmem
      exact ⟨hcur c (by simpa using hcmem), Or.inl (by simpa using hcmem)⟩
  | cons a rest ih =>
    intro cur hcur w hw
    by_cases ha : isPySpace a
    · by_cases hc : cur.isEmpty
      · rw [show splitWsAux cur (a :: rest) = splitWsAux [] rest by
          simp [splitWsAux, ha, hc]] at hw
        obtain ⟨h1, h2⟩ := ih [] (by simp) w hw
        exact ⟨h1, fun c hcmem => ⟨(h2 c hcmem).1,
          Or.inr (mem_cons_of_mem a ((h2 c hcmem).2.resolve_left (by simp)))⟩⟩
      · rw [show splitWsAux cur (a :: rest) = cur.reverse :: splitWsAux [] rest by
          simp [splitWsAux, ha, hc]] at hw
        rcases mem_cons.mp hw with hw | hw
        · subst hw
          refine ⟨by simpa using (by simpa [List.isEmpty_iff] using hc), ?_⟩
          intro c hcmem
          exact ⟨hcur c (by simpa using hcmem), Or.inl (by simpa using hcmem)⟩
        · obtain ⟨h1, h2⟩ := ih [] (by simp) w hw
          exact ⟨h1, fun c hcmem => ⟨(h2 c hcmem).1,
            Or.inr (mem_cons_of_mem a ((h2 c hcmem).2.resolve_left (by simp)))⟩⟩
    · rw [show splitWsAux cur (a :: rest) = splitWsAux (a :: cur) rest by
        simp [splitWsAux, ha]] at hw
      have hinv : ∀ c ∈ a :: cur, isPySpace c = false := by
        intro c hcmem
        rcases mem_cons.mp hcmem with h | h
        · subst h; simpa using ha
        · exact hcur c h
      obtain ⟨h1, h2⟩ := ih (a :: cur) hinv w hw
      refine ⟨h1, fun c hcmem => ⟨(h2 c hcmem).1, ?_⟩⟩
      rcases (h2 c hcmem).2 with h | h
      · rcases mem_cons.mp h with h | h
        · subst h; exact Or.inr (mem_cons_self _ _)
        · exact Or.inl h
      · exact Or.inr (mem_cons_of_mem a h)

theorem splitWs_words (l : List Char) :
    ∀ w ∈ splitWs l, w ≠ [] ∧ ∀ c ∈ w, isPySpace c = false ∧ c ∈ l := by
  intro w hw
  obtain ⟨h1, h2⟩ := splitWsAux_words l [] (by simp) w hw
  exact ⟨h1, fun c hc => ⟨(h2 c hc).1, (h2 c hc).2.resolve_left (by simp)⟩⟩

theorem mem_joinSpace : ∀ (ws : List (List Char)) (c : Char), c ∈ joinSpace ws →
    c = ' ' ∨ ∃ w ∈ ws, c ∈ w
  | [], c, h => by simp [joinSpace] at h
  | [w], c, h => by
    right
    exact ⟨w, by simp, by simpa [joinSpace] using h⟩
  | w :: x :: ws, c, h => by
    rw [joinSpace] at h
    rcases mem_append.mp h with h | h
    · exact Or.inr ⟨w, by simp, h⟩
    · rcases mem_cons.mp h with h | h
      · exact Or.inl h
      · rcases mem_joinSpace (x :: ws) c h with h | ⟨w', hw', hc⟩
        · exact Or.inl h
        · exact Or.inr ⟨w', mem_cons_of_mem w hw', hc⟩

theorem joinSpace_ne_nil : ∀ (ws : List (List Char)), ws ≠ [] →
    (∀ w ∈ ws, w ≠ []) → joinSpace ws ≠ []
  | [], h, _ => absurd rfl h
  | [w], _, hw => by simpa [joinSpace] using hw w (by simp)
  | w :: x :: ws, _, hw => by
    rw [joinSpace]
    simp [hw w (by simp)]

theorem head?_joinSpace_ne_space : ∀ (ws : List (List Char)),
    (∀ w ∈ ws, w ≠ [] ∧ ∀ c ∈ w, isPySpace c = false) →
    (joinSpace ws).head? ≠ some ' '
  | [], _ => by simp [joinSpace]
  | [w], hws => by
    intro h
    have hmem : ' ' ∈ w := mem_of_mem_head? (by simpa [joinSpace] using h)
    have := ((hws w (by simp)).2 ' ' hmem)
    simp [isPySpace] at this
  | w :: x :: ws, hws => by
    intro h
    rw [joinSpace, head?_append_of_ne_nil _ (hws w (by simp)).1] at h
    have hmem : ' ' ∈ w := mem_of_mem_head? h
    have := ((hws w (by simp)).2 ' ' hmem)
    simp [isPySpace] at this

theorem getLast?_joinSpace_ne_space : ∀ (ws : List (List Char)),
    (∀ w ∈ ws, w ≠ [] ∧ ∀ c ∈ w, isPySpace c = false) →
    (joinSpace ws).getLast? ≠ some ' '
  | [], _ => by simp [joinSpace]
  | [w], hws => by
    intro h
    have hmem : ' ' ∈ w := mem_of_mem_getLast? (by simpa [joinSpace] using h)
    have := ((hws w (by simp)).2 ' ' hmem)
    simp [isPySpace] at this
  | w :: x :: ws, hws => by
    intro h
    have hne : joinSpace (x :: ws) ≠ [] :=
      joinSpace_ne_nil _ (by simp) (fun w' hw' => (hws w' (mem_cons_of_mem w hw')).1)
    obtain ⟨y, l', hyl⟩ := exists_cons_of_ne_nil hne
    rw [joinSpace, getLast?_append_of_ne_nil _ (by simp), hyl, getLast?_cons_cons] at h
    exact getLast?_joinSpace_ne_space (x :: ws)
      (fun w' hw' => hws w' (mem_cons_of_mem w hw')) (hyl ▸ h)

theorem chain'_joinSpace : ∀ (ws : List (List Char)),
    (∀ w ∈ ws, w ≠ [] ∧ ∀ c ∈ w, isPySpace c = false) →
    List.Chain' (fun a b => ¬(a = ' ' ∧ b = ' ')) (joinSpace ws)
  | [], _ => by simp [joinSpace]
  | [w], hws => by
    rw [joinSpace]
    apply List.Pairwise.chain'
    apply List.pairwise_of_forall_mem_list
    intro a ha b hb
    intro ⟨h1, _⟩
    have := (hws w (by simp)).2 a ha
    subst h1
    simp [isPySpace] at this
  | w :: x :: ws, hws => by
    rw [joinSpace]
    rw [List.chain'_append]
    refine ⟨?_, ?_, ?_⟩
    · apply List.Pairwise.chain'
      apply List.pairwise_of_forall_mem_list
      intro a ha b hb
      intro ⟨h1, _⟩
      have := (hws w (by simp)).2 a ha
      subst h1
      simp [isPySpace] at this
    · rw [List.chain'_cons']
      refine ⟨?_, chain'_joinSpace (x :: ws) (fun w' hw' => hws w' (mem_cons_of_mem w hw'))⟩
      intro b hb
      intro ⟨_, h2⟩
      subst h2
      exact head?_joinSpace_ne_space (x :: ws)
        (fun w' hw' => hws w' (mem_cons_of_mem w hw')) hb
    · intro a ha b hb
      intro ⟨h1, _⟩
      have hmem : a ∈ w := mem_of_mem_getLast? ha
      have := (hws w (by simp)).2 a hmem
      subst h1
      simp [isPySpace] at this

theorem toLower_not_upper (c : Char) : (c.toLower).isUpper = false := by
  rw [Char.toLower]
  by_cases h : c.toNat ≥ 65 ∧ c.toNat ≤ 90
  · rw [if_pos h]
    have hvalid : (c.toNat + 32).isValidChar := Or.inl (by omega)
    rw [Char.ofNat, dif_pos hvalid]
    simp only [Char.isUpper, Bool.and_eq_false_iff, decide_eq_false_iff_not]
    right
    intro hle
    have h90 : (90 : Nat) < UInt32.size := by norm_num [UInt32.size]
    have := UInt32.toNat_le_of_le h90 hle
    rw [show (Char.ofNatAux (c.toNat + 32) hvalid).val.toNat = c.toNat + 32 from rfl] at this
    omega
  · rw [if_neg h]
    simp only [Char.isUpper, Bool.and_eq_false_iff, decide_eq_false_iff_not]
    by_cases h65 : 65 ≤ c.toNat
    · right
      intro hle
      have h90 : (90 : Nat) < UInt32.size := by norm_num [UInt32.size]
      have := UInt32.toNat_le_of_le h90 hle
      rw [show c.val.toNat = c.toNat from rfl] at this
      omega
    · left
      intro hle
      have h65' : (65 : Nat) < UInt32.size := by norm_num [UInt32.size]
      have := UInt32.le_toNat_of_le h65' hle
      rw [show c.val.toNat = c.toNat from rfl] at this
      omega

theorem normalize_text_amended (s : List Char) :
    (∀ c ∈ normalize_text s, ((c.isAlphanum = true ∨ c = '_') ∧ c.isUpper = false) ∨ c = ' ') ∧
    List.Chain' (fun a b => ¬(a = ' ' ∧ b = ' ')) (normalize_text s) ∧
    (normalize_text s).head? ≠ some ' ' ∧
    (normalize_text s).getLast? ≠ some ' ' := by
  have hwords : ∀ w ∈ splitWs ((s.map Char.toLower).filter
      (fun c => isWordChar c || isPySpace c)), w ≠ [] ∧ ∀ c ∈ w, isPySpace c = false :=
    fun w hw => ⟨(splitWs_words _ w hw).1, fun c hc => ((splitWs_words _ w hw).2 c hc).1⟩
  refine ⟨?_, chain'_joinSpace _ hwords, head?_joinSpace_ne_space _ hwords,
    getLast?_joinSpace_ne_space _ hwords⟩
  intro c hc
  rcases mem_joinSpace _ _ hc with h | ⟨w, hw, hcw⟩
  · exact Or.inr h
  · left
    have h1 := (splitWs_words _ w hw).2 c hcw
    have hcf := h1.2
    have hkeep : (isWordChar c || isPySpace c) = true := (mem_filter.mp hcf).2
    have hword : isWordChar c = true := by
      rcases (Bool.or_eq_true _ _).mp hkeep with h | h
      · exact h
      · rw [h1.1] at h; exact absurd h (by simp)
    constructor
    · rcases (Bool.or_eq_true _ _).mp hword with h | h
      · exact Or.inl h
      · exact Or.inr (by simpa using h)
    · have hmap : c ∈ s.map Char.toLower := mem_of_mem_filter hcf
      obtain ⟨a, _, ha⟩ := mem_map.mp hmap
      rw [← ha]
      exact toLower_not_upper a

theorem normalize_text_underscore_counterexample :
    normalize_text ['_'] = ['_'] ∧ ('_').isAlphanum = false ∧ isPySpace '_' = false := by
  decide

theorem normalize_text_amended_witness :
    '_' ∈ normalize_text ['A', '_', 'b'] ∧
    ((('_').isAlphanum = true ∨ '_' = '_') ∧ ('_').isUpper = false ∨ '_' = ' ') :=
  ⟨by decide, (normalize_text_amended ['A', '_', 'b']).1 '_' (by decide)⟩

/-- C8: estimate_noise_floor discards RMS values at or below the -100
sentinel; with no valid value left it returns exactly -60 dB, and
otherwise it returns the entry of the ascending sort at index
`max(0, floor(N/10))`, which is always in bounds and hence one of the
valid values. -/
theorem estimate_noise_floor_spec (vals : List ℚ) :
    (vals.filter (fun v => v > -100) = [] → estimate_noise_floor vals = -60) ∧
    (vals.filter (fun v => v > -100) ≠ [] →
      max 0 ((vals.filter (fun v => v > -100)).length / 10) <
        (insertionSort (· ≤ ·) (vals.filter (fun v => v > -100))).length ∧
      estimate_noise_floor vals =
        (insertionSort (· ≤ ·) (vals.filter (fun v => v > -100))).getD
          (max 0 ((vals.filter (fun v => v > -100)).length / 10)) 0 ∧
      estimate_noise_floor vals ∈ vals.filter (fun v => v > -100)) := by
  constructor
  · intro h
    simp [estimate_noise_floor, h]
  · intro h
    have hpos : 0 < (vals.filter (fun v => v > -100)).length :=
      length_pos.mpr h
    have hidx : max 0 ((vals.filter (fun v => v > -100)).length / 10) <
        (insertionSort (· ≤ ·) (vals.filter (fun v => v > -100))).length := by
      rw [length_insertionSort, Nat.zero_max]
      exact Nat.div_lt_self hpos (by norm_num)
    have hne : (vals.filter (fun v => v > -100)).isEmpty = false := by
      simpa [List.isEmpty_iff] using h
    have heval : estimate_noise_floor vals =
        (insertionSort (· ≤ ·) (vals.filter (fun v => v > -100))).getD
          (max 0 ((vals.filter (fun v => v > -100)).length / 10)) 0 := by
      rw [estimate_noise_floor]
      simp only [hne]
      rfl
    refine ⟨hidx, heval, ?_⟩
    rw [heval, getD_eq_getElem _ _ hidx]
    exact (mem_insertionSort (· ≤ ·)).mp (getElem_mem hidx)

/-- C8 witness: the spec applied to the list [-120, -50, -30]: the
sentinel value -120 is discarded and the 10th-percentile pick is -50. -/
theorem estimate_noise_floor_spec_witness :
    decide ([(-120 : ℚ), -50, -30].filter (fun v => v > -100) = []) = false ∧
    estimate_noise_floor [(-120 : ℚ), -50, -30] ∈
      [(-120 : ℚ), -50, -30].filter (fun v => v > -100) :=
  ⟨by decide, ((estimate_noise_floor_spec [(-120 : ℚ), -50, -30]).2 (by decide)).2.2⟩

/-- C10: the code slip evaluated — grouping keys default a missing
microphone category to "unknown", but the aggregate filter compares the
raw category with no default, so a single sample without a category makes
`cat_evals` empty and the average-quality division raise
ZeroDivisionError, where the claim promises a mean and a null average
WER and never an error. -/
theorem category_analysis_missing_category_error :
    category_analysis [noCategoryEval] =
      .error "ZeroDivisionError: division by zero" := by
  rfl

/-- C7 counterexample: generate_report reads the OPENAI_API_KEY presence
flag from the process environment into the summary, so the same
evaluation set and reference text yield different report documents under
different environments. -/
theorem generate_report_env_counterexample :
    decide (generate_report [] [] true = generate_report [] [] false) = false := by
  decide

/-- C7 amended: report generation is a pure function of the evaluation
set, the reference text, and the OPENAI_API_KEY presence flag taken from
the environment; two invocations agreeing on those three inputs produce
identical report documents. -/
theorem generate_report_deterministic (e₁ e₂ : List SampleEvaluation)
    (r₁ r₂ : List Char) (k₁ k₂ : Bool)
    (he : e₁ = e₂) (hr : r₁ = r₂) (hk : k₁ = k₂) :
    generate_report e₁ r₁ k₁ = generate_report e₂ r₂ k₂ := by
  rw [he, hr, hk]

/-- C7 witness: the amended determinism instantiated at the empty run. -/
theorem generate_report_deterministic_witness :
    ([mkEval 1] : List SampleEvaluation) = [mkEval 1] ∧
    generate_report [mkEval 1] [] true = generate_report [mkEval 1] [] true :=
  ⟨rfl, generate_report_deterministic [mkEval 1] [mkEval 1] [] [] true true rfl rfl rfl⟩

/-- C5 counterexample: the by_local_whisper_wer rankings key is inserted
unconditionally, so it is present (as an empty ranking) even for an
evaluation set in which no sample has a local-backend result. -/
theorem local_wer_section_counterexample :
    "by_local_whisper_wer" ∈ ranking_keys [mkEval 1] ∧
    ([mkEval 1].any (hasService localService)) = false := by
  constructor
  · decide
  · decide

/-- C6 counterexample: a probe failure on an existing file propagates as
an uncaught exception: the whole batch aborts and the remaining samples
(here sample 2) are never evaluated, where the claim promises a logged
skip and continuation. -/
theorem evaluate_batch_abort_counterexample :
    evaluate_batch [⟨1, .probeFail "Expecting value: line 1 column 1 (char 0)"⟩,
        ⟨2, .ok (mkEval 2)⟩] =
      .error "Expecting value: line 1 column 1 (char 0)" := by
  rfl

/-- C6 amended: only a missing audio file is skipped with a notice while
the run continues; when no sample's probe fails, the batch yields exactly
the evaluations of the samples whose files exist, in order. -/
theorem evaluate_batch_no_probe_failures (samples : List MetaSample)
    (h : ∀ s ∈ samples, s.status.isProbeFail = false) :
    evaluate_batch samples = .ok (samples.filterMap (fun s =>
      match s.status with
      | .ok p => some { p with sample_id := s.id }
      | _ => none)) := by
  induction samples with
  | nil => rfl
  | cons s rest ih =>
    have hrest := ih (fun s' hs' => h s' (mem_cons_of_mem s hs'))
    obtain ⟨i, st⟩ := s
    cases st with
    | missing => simpa [evaluate_batch, filterMap_cons] using hrest
    | probeFail msg =>
      exact absurd (h ⟨i, .probeFail msg⟩ (mem_cons_self _ _))
        (by simp [FileStatus.isProbeFail])
    | ok p => simp [evaluate_batch, filterMap_cons, hrest, Except.map]

/-- C6 witness: a missing file is skipped and the remaining sample is
still evaluated. -/
theorem evaluate_batch_no_probe_failures_witness :
    evaluate_batch [⟨1, FileStatus.missing⟩, ⟨2, FileStatus.ok (mkEval 2)⟩] =
      .ok [mkEval 2] :=
  (evaluate_batch_no_probe_failures
    [⟨1, FileStatus.missing⟩, ⟨2, FileStatus.ok (mkEval 2)⟩] (by decide)).trans rfl

/-- C5 amended: the OpenAI WER ranking key is present in the report
rankings iff some sample has an OpenAI result, while the local WER
ranking key is always present (possibly with an empty ranking); each
backend ranking lists exactly the samples having that backend's result
(as a permutation of that filter) in ascending order of that backend's
WER. -/
theorem wer_ranking_sections (evals : List SampleEvaluation) :
    ("by_openai_whisper_wer" ∈ ranking_keys evals ↔
      evals.any (hasService openaiService) = true) ∧
    "by_local_whisper_wer" ∈ ranking_keys evals ∧
    by_backend_wer localService evals ~ evals.filter (hasService localService) ∧
    Pairwise (werLE localService) (by_backend_wer localService evals) ∧
    by_backend_wer openaiService evals ~ evals.filter (hasService openaiService) ∧
    Pairwise (werLE openaiService) (by_backend_wer openaiService evals) := by
  have hpermO : by_backend_wer openaiService evals ~
      evals.filter (hasService openaiService) :=
    perm_insertionSort (werLE openaiService) _
  have hany : (by_backend_wer openaiService evals).isEmpty = true ↔
      ¬ evals.any (hasService openaiService) = true := by
    rw [List.isEmpty_iff]
    constructor
    · intro h
      have hnil : evals.filter (hasService openaiService) = [] :=
        (h ▸ hpermO).symm.eq_nil
      intro hany
      obtain ⟨x, hx, hpx⟩ := List.any_eq_true.mp hany
      have : x ∈ evals.filter (hasService openaiService) :=
        mem_filter.mpr ⟨hx, hpx⟩
      simp [hnil] at this
    · intro h
      have hnil : evals.filter (hasService openaiService) = [] := by
        rcases List.eq_nil_or_concat (evals.filter (hasService openaiService)) with hn | ⟨l, x, hc⟩
        · exact hn
        · exfalso
          have hx : x ∈ evals.filter (hasService openaiService) := by
            rw [hc, concat_eq_append]; exact mem_append_right l (mem_cons_self _ _)
          exact h (List.any_eq_true.mpr
            ⟨x, (mem_filter.mp hx).1, (mem_filter.mp hx).2⟩)
      exact (hpermO.trans (hnil ▸ Perm.refl _)).eq_nil
  refine ⟨?_, ?_, perm_insertionSort (werLE localService) _,
    sorted_insertionSort (werLE localService) _, hpermO,
    sorted_insertionSort (werLE openaiService) _⟩
  · constructor
    · intro hmem
      by_cases he : (by_backend_wer openaiService evals).isEmpty
      · exfalso
        simp only [ranking_keys, he] at hmem
        rcases mem_append.mp hmem with h | h
        · rcases mem_cons.mp h with h | h
          · exact absurd h (by decide)
          · rcases mem_cons.mp h with h | h
            · exact absurd h (by decide)
            · simp at h
        · simp at h
      · by_contra hno
        exact he (hany.mpr hno)
    · intro hany2
      have he : (by_backend_wer openaiService evals).isEmpty = false := by
        rcases Bool.eq_false_or_eq_true (by_backend_wer openaiService evals).isEmpty with hb | hb
        · exact absurd hany2 (hany.mp hb)
        · exact hb
      simp [ranking_keys, he]
  · simp [ranking_keys]

/-- C3 counterexample: in merge mode with target subset {1,2}, when every
prior evaluation is in the target subset the filtered prior list is
empty, the sort is skipped, and the result keeps the metadata order
[2, 1], which is not ascending in sample_id. -/
theorem merge_sort_skipped_counterexample :
    main_evaluations c3meta (some [1, 2]) true (some [mkEval 1]) =
      .ok [mkEval 2, mkEval 1] ∧
    decide ([mkEval 2, mkEval 1].Pairwise idLE) = false := by
  constructor
  · rfl
  · decide

/-- C3 amended: in merge mode with a target subset, whenever some prior
evaluation survives the subset filter, the result is exactly the
sample_id-ascending sort of fresh evaluations plus the surviving prior
evaluations (a permutation of their union); prior evaluations outside
the subset are carried over unchanged, and the result depends on the
prior report only through its entries outside the subset (so not on
whether a target sample's old entry existed).  When no prior evaluation
survives the filter, the sort is skipped and the result is the fresh
evaluations in metadata order. -/
theorem main_evaluations_merge (metadata : List MetaSample) (ids : List Int)
    (prior : List SampleEvaluation) (fresh : List SampleEvaluation)
    (hfresh : evaluate_batch (select_samples metadata (some ids)) = .ok fresh)
    (hne : prior.filter (fun e => e.sample_id ∉ ids) ≠ []) :
    main_evaluations metadata (some ids) true (some prior) =
      .ok (sortById (fresh ++ prior.filter (fun e => e.sample_id ∉ ids))) ∧
    sortById (fresh ++ prior.filter (fun e => e.sample_id ∉ ids)) ~
      fresh ++ prior.filter (fun e => e.sample_id ∉ ids) ∧
    Pairwise idLE (sortById (fresh ++ prior.filter (fun e => e.sample_id ∉ ids))) ∧
    (∀ p ∈ prior, p.sample_id ∉ ids →
      p ∈ sortById (fresh ++ prior.filter (fun e => e.sample_id ∉ ids))) ∧
    (∀ prior₂ : List SampleEvaluation,
      prior₂.filter (fun e => e.sample_id ∉ ids) =
        prior.filter (fun e => e.sample_id ∉ ids) →
      main_evaluations metadata (some ids) true (some prior₂) =
        main_evaluations metadata (some ids) true (some prior)) := by
  have hie : (prior.filter (fun e => e.sample_id ∉ ids)).isEmpty = false := by
    simpa [List.isEmpty_iff] using hne
  refine ⟨?_, perm_insertionSort idLE _, sorted_insertionSort idLE _, ?_, ?_⟩
  · rw [main_evaluations, hfresh]
    simp [filter_existing, hie, Except.map]
    intro hall
    exfalso
    obtain ⟨x, hx⟩ := exists_mem_of_ne_nil _ hne
    have hnot := (mem_filter.mp hx).2
    simp at hnot
    exact hnot (hall x (mem_filter.mp hx).1)
  · intro p hp hpid
    rw [sortById, mem_insertionSort]
    exact mem_append_right fresh (mem_filter.mpr ⟨hp, by simpa using hpid⟩)
  · intro prior₂ hp2
    rw [main_evaluations, main_evaluations]
    simp only [filter_existing, hp2]

/-- C3 witness: merging target {1} with a surviving prior entry 3 takes
the sorted-union branch. -/
theorem main_evaluations_merge_witness :
    main_evaluations c3meta (some [1]) true (some [mkEval 3]) =
      .ok (sortById ([mkEval 1] ++
        [mkEval 3].filter (fun e => e.sample_id ∉ [(1 : Int)]))) :=
  (main_evaluations_merge c3meta [1] [mkEval 3] [mkEval 1] (by rfl) (by decide)).1

theorem orderedInsert_qualityIdOrder (x : SampleEvaluation)
    (m : List SampleEvaluation) (hm : Pairwise qualityIdOrder m)
    (hx : ∀ y ∈ m, x.sample_id < y.sample_id) :
    Pairwise qualityIdOrder (orderedInsert qualityGE x m) := by
  induction m with
  | nil => simp
  | cons b t ih =>
    rw [List.orderedInsert]
    by_cases hq : qualityGE x b
    · rw [if_pos hq]
      refine pairwise_cons.mpr ⟨?_, hm⟩
      intro y hy
      have hscore_y_b : y.audio_quality_score ≤ b.audio_quality_score ∨ y = b := by
        rcases mem_cons.mp hy with h | h
        · right; exact h
        · left
          rcases (pairwise_cons.mp hm).1 y h with h2 | h2
          · exact le_of_lt h2
          · exact le_of_eq h2.1.symm
      have hyb : y.audio_quality_score ≤ x.audio_quality_score := by
        rcases hscore_y_b with h | h
        · exact le_trans h hq
        · rw [h]; exact hq
      rcases lt_or_eq_of_le hyb with h | h
      · exact Or.inl h
      · exact Or.inr ⟨h.symm, hx y hy⟩
    · rw [if_neg hq]
      refine pairwise_cons.mpr ⟨?_,
        ih (pairwise_cons.mp hm).2 (fun y hy => hx y (mem_cons_of_mem b hy))⟩
      intro z hz
      rcases (mem_orderedInsert qualityGE).mp hz with h | h
      · subst h
        exact Or.inl (lt_of_not_le hq)
      · exact (pairwise_cons.mp hm).1 z h

theorem insertionSort_qualityIdOrder (evals : List SampleEvaluation)
    (h : evals.Pairwise (fun a b => a.sample_id < b.sample_id)) :
    Pairwise qualityIdOrder (insertionSort qualityGE evals) := by
  induction evals with
  | nil => simp
  | cons a l ih =>
    rw [List.insertionSort]
    exact orderedInsert_qualityIdOrder a _ (ih (pairwise_cons.mp h).2)
      (fun y hy => (pairwise_cons.mp h).1 y ((mem_insertionSort qualityGE).mp hy))

theorem enumFrom_map_succ_fst {α : Type} (l : List α) :
    ∀ n : Nat, (l.enumFrom n).map (fun p => p.1 + 1) = range' (n + 1) l.length := by
  induction l with
  | nil => intro n; rfl
  | cons a t ih =>
    intro n
    rw [enumFrom, map_cons, ih (n + 1), length_cons, range'_succ]

/-- C4 counterexample: Python sorted is stable, so two samples with equal
scores keep the input order — here ids [5, 3] — and are not reordered to
ascending sample_id. -/
theorem by_quality_tie_counterexample :
    (by_quality [mkEval 5, mkEval 3]).map (fun e => e.sample_id) = [5, 3] ∧
    (mkEval 5).audio_quality_score = (mkEval 3).audio_quality_score ∧
    decide ((5 : Int) < 3) = false := by
  refine ⟨by rfl, rfl, by decide⟩

/-- C4 amended: when the evaluation list is ascending in sample_id (as it
is after a merge), the by_audio_quality ranking is a permutation of the
evaluations sorted by strictly descending score with ties by ascending
sample_id, and every entry's rank is its 1-based position. -/
theorem by_quality_ranking (evals : List SampleEvaluation)
    (h : evals.Pairwise (fun a b => a.sample_id < b.sample_id)) :
    Pairwise qualityIdOrder (by_quality evals) ∧
    by_quality evals ~ evals ∧
    (quality_entries evals).map (fun q => q.rank) = range' 1 evals.length := by
  refine ⟨insertionSort_qualityIdOrder evals h, perm_insertionSort qualityGE evals, ?_⟩
  rw [quality_entries, map_map]
  have h2 := enumFrom_map_succ_fst (by_quality evals) 0
  rw [show (by_quality evals).length = evals.length from length_insertionSort _ _] at h2
  exact h2

/-- C4 witness: the amended ranking property at a two-sample id-ascending
list. -/
theorem by_quality_ranking_witness :
    Pairwise qualityIdOrder (by_quality [mkEval 3, mkEval 5]) ∧
    (quality_entries [mkEval 3, mkEval 5]).map (fun q => q.rank) = range' 1 2 :=
  ⟨(by_quality_ranking [mkEval 3, mkEval 5] (by decide)).1,
    (by_quality_ranking [mkEval 3, mkEval 5] (by decide)).2.2⟩
